import Mathlib

/-!
Verification of the two example applications of this repository:
`examples/all_events.rs` (a bounded, FIFO-evicting event log of capacity 20)
and `examples/dog_app.rs` (consumers of the framework's dependency-tracked
asynchronous resource cell).

The event-log callback `log_event` is embedded directly from the source.
The reactive-resource machinery (`use_signal` / `use_resource`) is not part
of the source files here — only its callers are — so it is modelled from the
specification's description as a small transition system, and the compute
bodies of the two resources are embedded from the source files.
-/

namespace AllEvents

/--
Embedding of the `log_event` closure of `examples/all_events.rs`:

  if events.read().len() >= 20 { events.write().pop_front(); }
  events.write().push_back(event);

The `VecDeque` is modelled as a `List` whose head is the front (oldest
record) and whose last element is the back (newest record); `pop_front`
is `List.tail` and `push_back e` is `· ++ [e]`.
-/
def log_event {E : Type} (events : List E) (event : E) : List E :=
  (if 20 ≤ events.length then events.tail else events) ++ [event]

/-- Folding `log_event` over a whole sequence of incoming events,
starting from a given log state (the signal starts as the empty deque). -/
def pushAll {E : Type} (start : List E) (es : List E) : List E :=
  es.foldl log_event start

theorem log_event_length_le {E : Type} (l : List E) (e : E)
    (h : l.length ≤ 20) : (log_event l e).length ≤ 20 := by
  unfold log_event
  by_cases h20 : 20 ≤ l.length
  · have hl : l.length = 20 := Nat.le_antisymm h h20
    cases l with
    | nil => simp at hl
    | cons a l' =>
      simp only [if_pos h20, List.tail_cons, List.length_append,
        List.length_singleton]
      simp only [List.length_cons] at hl
      omega
  · simp only [if_neg h20, List.length_append, List.length_singleton]
    omega

/-- The central sliding-window lemma: starting from any log of length at
most 20, folding the pushes of `es` leaves exactly the last 20 elements of
`start ++ es` (all of them when there are fewer than 20). -/
theorem pushAll_eq_drop {E : Type} (es : List E) :
    ∀ (l : List E), l.length ≤ 20 →
      pushAll l es = (l ++ es).drop (l.length + es.length - 20) := by
  induction es with
  | nil =>
    intro l hl
    have h0 : l.length - 20 = 0 := by omega
    simp [pushAll, h0]
  | cons e es ih =>
    intro l hl
    have hstep : pushAll l (e :: es) = pushAll (log_event l e) es := by
      simp [pushAll, List.foldl_cons]
    by_cases h20 : 20 ≤ l.length
    · have hl20 : l.length = 20 := Nat.le_antisymm hl h20
      cases l with
      | nil => simp at hl20
      | cons a l' =>
        have hlen' : l'.length = 19 := by
          simp only [List.length_cons] at hl20
          omega
        have hle : log_event (a :: l') e = l' ++ [e] := by
          simp [log_event, hlen']
        have hlen2 : (l' ++ [e]).length ≤ 20 := by
          simp [hlen']
        rw [hstep, hle, ih _ hlen2]
        have harr : (l' ++ [e]) ++ es = l' ++ e :: es := by
          simp
        rw [harr]
        have h1 : (l' ++ [e]).length + es.length - 20 = es.length := by
          simp [hlen']
        have h2 : (a :: l').length + (e :: es).length - 20 = es.length + 1 := by
          simp [hlen']
        rw [h1, h2]
        simp [List.drop_succ_cons]
    · have hle : log_event l e = l ++ [e] := by
        simp [log_event, if_neg h20]
      have hlen2 : (l ++ [e]).length ≤ 20 := by
        simp only [List.length_append, List.length_singleton]
        omega
      rw [hstep, hle, ih _ hlen2]
      have harr : (l ++ [e]) ++ es = l ++ e :: es := by
        simp
      rw [harr]
      have h1 : (l ++ [e]).length + es.length =
          l.length + (e :: es).length := by
        simp; omega
      rw [h1]

/-- From the empty log, the window is the last 20 pushed events. -/
theorem pushAll_nil_eq_drop {E : Type} (es : List E) :
    pushAll [] es = es.drop (es.length - 20) := by
  have h := pushAll_eq_drop es ([] : List E) (by simp)
  simpa using h

end AllEvents

/-- C1: for every sequence of push operations applied through `log_event`
to the capacity-20 log, starting from the empty log, the stored record
sequence has length at most 20 after each push (every point of the run is
itself the fold of some event sequence from empty). -/
theorem bounded_length_invariant {E : Type} (es : List E) :
    (AllEvents.pushAll [] es).length ≤ 20 := by
  rw [AllEvents.pushAll_nil_eq_drop]
  simp only [List.length_drop]
  omega

/-- C2: pushing more than 20 events from the empty log leaves exactly the
last 20 pushed events, in arrival order (oldest first); the log's length is
then exactly 20.  Instantiated at 25 events this is events 6 through 25, and
at 21 events `e1..e21` it is `[e2..e21]`. -/
theorem fifo_eviction_window {E : Type} (es : List E) (h : 20 < es.length) :
    AllEvents.pushAll [] es = es.drop (es.length - 20) ∧
    (AllEvents.pushAll [] es).length = 20 := by
  refine ⟨AllEvents.pushAll_nil_eq_drop es, ?_⟩
  rw [AllEvents.pushAll_nil_eq_drop]
  simp only [List.length_drop]
  omega

/-- Witness for C2 at the concrete input of 25 distinct events `0..24`:
the log afterwards is the last 20 of them. -/
theorem fifo_eviction_window_witness :
    20 < (List.range 25).length ∧
    (AllEvents.pushAll [] (List.range 25)
        = (List.range 25).drop ((List.range 25).length - 20) ∧
      (AllEvents.pushAll [] (List.range 25)).length = 20) :=
  ⟨by decide, fifo_eviction_window (List.range 25) (by decide)⟩

/-- C9: a push onto a log holding fewer than 20 records evicts nothing:
the previous records all remain in their original relative order and the
new event is appended at the back. -/
theorem push_below_capacity_no_eviction {E : Type} (l : List E) (e : E)
    (h : l.length < 20) :
    AllEvents.log_event l e = l ++ [e] := by
  have h20 : ¬ 20 ≤ l.length := by omega
  simp [AllEvents.log_event, h20]

/-- Witness for C9 at a concrete three-element log. -/
theorem push_below_capacity_no_eviction_witness :
    ([1, 2, 3] : List ℕ).length < 20 ∧
    AllEvents.log_event [1, 2, 3] 4 = [1, 2, 3, 4] :=
  ⟨by decide, push_below_capacity_no_eviction [1, 2, 3] 4 (by decide)⟩

namespace DogApp

/-- Modelled from the spec: the tri-state result of a `ReactiveResource`
(`use_resource` is not part of the source files; only its callers are).
`state` is one of `Pending`, `Ready(T)`, `Failed(E)`. -/
inductive RState (T E : Type) where
  | Pending : RState T E
  | Ready (t : T) : RState T E
  | Failed (e : E) : RState T E
deriving DecidableEq

/-- Modelled from the spec: the statically relevant shape of a resource's
compute closure.  `syncReads` is the list of signal identities the closure
reads during its synchronous prefix (before the first suspension point),
possibly depending on current signal values; `asyncReads` is the list of
signal identities it reads only after a suspension point.  Signals are
identified by natural numbers and the environment maps each identity to its
current value. -/
structure Compute (V : Type) where
  syncReads : (ℕ → V) → List ℕ
  asyncReads : (ℕ → V) → List ℕ

/-- Modelled from the spec: the observable fields of a `ReactiveResource`:
a monotonically increasing `generation`, the committed `state`, and the
`dependencies` recorded during the last synchronous prefix. -/
structure Res (T E : Type) where
  generation : ℕ
  state : RState T E
  dependencies : List ℕ
deriving DecidableEq

/-- Modelled from the spec: the events acting on a resource — an explicit
`restart`, a `write` to a signal (which restarts the resource exactly when
the signal is among its recorded dependencies), and the completion of the
computation started under generation `g` with result `res`. -/
inductive Action (V T E : Type) where
  | restart : Action V T E
  | write (s : ℕ) (v : V) : Action V T E
  | complete (g : ℕ) (res : Except E T) : Action V T E

/-- Committing a completed computation's result into the tri-state. -/
def ofResult {T E : Type} : Except E T → RState T E
  | .ok t => .Ready t
  | .error e => .Failed e

/-- Updating the signal environment at one signal identity. -/
def writeEnv {V : Type} (σ : ℕ → V) (s : ℕ) (v : V) : ℕ → V :=
  fun i => if i = s then v else σ i

/-- Modelled from the spec (§4.1 step 1): a restart increments the
generation, resets the state to `Pending`, and re-records as dependencies
exactly the signal reads of the synchronous prefix under the current
environment. -/
def doRestart {V T E : Type} (c : Compute V) (σ : ℕ → V) (r : Res T E) :
    Res T E :=
  { generation := r.generation + 1
    state := .Pending
    dependencies := c.syncReads σ }

/-- Modelled from the spec: a freshly created resource starts `Pending` at
generation 0 with the synchronous-prefix reads as dependencies. -/
def create {V T E : Type} (c : Compute V) (σ : ℕ → V) : Res T E :=
  { generation := 0
    state := .Pending
    dependencies := c.syncReads σ }

/-- Modelled from the spec: `read` merely projects the committed state; it
is a total function, hence never blocks. -/
def read {T E : Type} (r : Res T E) : RState T E := r.state

/-- Modelled from the spec (§4.1 steps 3–5): one transition of the
resource/environment pair.  A write to a recorded dependency restarts; a
completion is committed exactly when its generation matches the current
one, and is discarded otherwise. -/
def step {V T E : Type} (c : Compute V) (p : Res T E × (ℕ → V)) :
    Action V T E → Res T E × (ℕ → V)
  | .restart => (doRestart c p.2 p.1, p.2)
  | .write s v =>
      if s ∈ p.1.dependencies then
        (doRestart c (writeEnv p.2 s v) p.1, writeEnv p.2 s v)
      else
        (p.1, writeEnv p.2 s v)
  | .complete g res =>
      if g = p.1.generation then
        ({ p.1 with state := ofResult res }, p.2)
      else
        p

/-- Running a sequence of actions. -/
def run {V T E : Type} (c : Compute V) (p : Res T E × (ℕ → V))
    (acts : List (Action V T E)) : Res T E × (ℕ → V) :=
  acts.foldl (step c) p

/-- Traces whose completion events are well formed: a completion for
generation `g` can only occur once generation `g` has been started, i.e.
`g` is at most the current generation at that point of the trace. -/
def WFfrom {V T E : Type} (c : Compute V) :
    Res T E × (ℕ → V) → List (Action V T E) → Prop
  | _, [] => True
  | p, a :: rest =>
      (match a with
       | Action.complete g _ => g ≤ p.1.generation
       | _ => True) ∧ WFfrom c (step c p a) rest

/-- The completion events of a trace, as generation/result pairs. -/
def completes {V T E : Type} (acts : List (Action V T E)) :
    List (ℕ × Except E T) :=
  acts.filterMap fun a =>
    match a with
    | Action.complete g res => some (g, res)
    | _ => none

theorem ofResult_ne_Pending {T E : Type} (res : Except E T) :
    ofResult res ≠ RState.Pending := by
  cases res <;> simp [ofResult]

theorem ofResult_inj {T E : Type} {res res' : Except E T}
    (h : ofResult res = ofResult res') : res = res' := by
  cases res <;> cases res' <;> simp [ofResult] at h <;> simp [h]

theorem step_generation_le {V T E : Type} (c : Compute V)
    (p : Res T E × (ℕ → V)) (a : Action V T E) :
    p.1.generation ≤ (step c p a).1.generation := by
  cases a with
  | restart => simp [step, doRestart]
  | write s v =>
    by_cases h : s ∈ p.1.dependencies <;> simp [step, doRestart, h]
  | complete g res =>
    by_cases h : g = p.1.generation <;> simp [step, h]

theorem run_cons {V T E : Type} (c : Compute V) (p : Res T E × (ℕ → V))
    (a : Action V T E) (acts : List (Action V T E)) :
    run c p (a :: acts) = run c (step c p a) acts := rfl

theorem run_generation_le {V T E : Type} (c : Compute V) :
    ∀ (acts : List (Action V T E)) (p : Res T E × (ℕ → V)),
      p.1.generation ≤ (run c p acts).1.generation := by
  intro acts
  induction acts with
  | nil => intro p; simp [run]
  | cons a rest ih =>
    intro p
    rw [run_cons]
    exact Nat.le_trans (step_generation_le c p a) (ih (step c p a))

theorem completes_cons_restart {V T E : Type}
    (rest : List (Action V T E)) :
    completes (Action.restart :: rest) = completes rest := by
  simp [completes]

theorem completes_cons_write {V T E : Type} (s : ℕ) (v : V)
    (rest : List (Action V T E)) :
    completes (Action.write s v :: rest) = completes rest := by
  simp [completes]

theorem completes_cons_complete {V T E : Type} (g : ℕ) (res : Except E T)
    (rest : List (Action V T E)) :
    completes (Action.complete g res :: rest)
      = (g, res) :: completes rest := by
  simp [completes]

/-- The heart of stale-result suppression: if after a well-formed trace the
state holds a committed result `t`, then `t` was committed by a completion
whose generation dominates every completion of the trace and is at least
the starting generation — or the starting state already held `t` and every
completion of the trace was stale at its starting generation. -/
theorem run_state_highest {V T E : Type} (c : Compute V) :
    ∀ (acts : List (Action V T E)) (p : Res T E × (ℕ → V)),
      WFfrom c p acts →
      ∀ t : Except E T, (run c p acts).1.state = ofResult t →
        (∃ g, (g, t) ∈ completes acts ∧
            (∀ gr ∈ completes acts, gr.1 ≤ g) ∧ p.1.generation ≤ g) ∨
        (p.1.state = ofResult t ∧
            ∀ gr ∈ completes acts, gr.1 < p.1.generation) := by
  intro acts
  induction acts with
  | nil =>
    intro p _ t hst
    right
    refine ⟨by simpa [run] using hst, ?_⟩
    simp [completes]
  | cons a rest ih =>
    intro p hwf t hst
    simp only [WFfrom] at hwf
    obtain ⟨hhead, hwtail⟩ := hwf
    rw [run_cons] at hst
    rcases ih (step c p a) hwtail t hst with
      ⟨g, hmem, hmax, hgen⟩ | ⟨hstate, hlt⟩
    · left
      cases a with
      | restart =>
        refine ⟨g, ?_, ?_, ?_⟩
        · rw [completes_cons_restart]; exact hmem
        · rw [completes_cons_restart]; exact hmax
        · exact Nat.le_trans (step_generation_le c p .restart) hgen
      | write s v =>
        refine ⟨g, ?_, ?_, ?_⟩
        · rw [completes_cons_write]; exact hmem
        · rw [completes_cons_write]; exact hmax
        · exact Nat.le_trans (step_generation_le c p (.write s v)) hgen
      | complete g₀ res₀ =>
        have hg₀ : g₀ ≤ p.1.generation := by simpa using hhead
        have hpg : p.1.generation ≤ g :=
          Nat.le_trans (step_generation_le c p (.complete g₀ res₀)) hgen
        refine ⟨g, ?_, ?_, hpg⟩
        · rw [completes_cons_complete]; exact List.mem_cons_of_mem _ hmem
        · rw [completes_cons_complete]
          intro gr hgr
          rcases List.mem_cons.mp hgr with h | h
          · rw [h]; exact Nat.le_trans hg₀ hpg
          · exact hmax gr h
    · cases a with
      | restart =>
        exfalso
        have : (RState.Pending : RState T E) = ofResult t := by
          simpa [step, doRestart] using hstate
        exact ofResult_ne_Pending t this.symm
      | write s v =>
        by_cases hdep : s ∈ p.1.dependencies
        · exfalso
          have : (RState.Pending : RState T E) = ofResult t := by
            simpa [step, doRestart, hdep] using hstate
          exact ofResult_ne_Pending t this.symm
        · right
          have hres : (step c p (.write s v)).1 = p.1 := by
            simp [step, hdep]
          rw [hres] at hstate hlt
          refine ⟨hstate, ?_⟩
          rw [completes_cons_write]
          exact hlt
      | complete g₀ res₀ =>
        have hg₀ : g₀ ≤ p.1.generation := by simpa using hhead
        by_cases hacc : g₀ = p.1.generation
        · left
          have hsres : (step c p (.complete g₀ res₀)).1
              = { p.1 with state := ofResult res₀ } := by
            simp [step, hacc]
          rw [hsres] at hstate hlt
          simp only at hstate
          have ht : res₀ = t := ofResult_inj hstate
          refine ⟨g₀, ?_, ?_, Nat.le_of_eq hacc.symm⟩
          · rw [completes_cons_complete, ht]
            exact List.mem_cons_self _ _
          · rw [completes_cons_complete]
            intro gr hgr
            rcases List.mem_cons.mp hgr with h | h
            · rw [h]
            · have := hlt gr h
              simp only at this
              omega
        · right
          have hres : (step c p (.complete g₀ res₀)).1 = p.1 := by
            simp [step, hacc]
          rw [hres] at hstate hlt
          refine ⟨hstate, ?_⟩
          rw [completes_cons_complete]
          intro gr hgr
          rcases List.mem_cons.mp hgr with h | h
          · rw [h]; omega
          · exact hlt gr h

/-- Signal identity of the `breed` signal of `dog_app.rs`. -/
def breedSig : ℕ := 0

/-- Embedded from the source (`dog_app.rs`, `BreedPic`): the compute
closure reads the `breed` signal synchronously while formatting the
request URL, before its first `.await`; it reads no signal afterwards. -/
def picCompute : Compute String :=
  { syncReads := fun _ => [breedSig], asyncReads := fun _ => [] }

/-- Initial environment: `breed` defaults to "shiba". -/
def shibaEnv : ℕ → String := fun _ => "shiba"

/-- The scenario of the spec: `breed` is rewritten to "akita" while the
computation started for "shiba" is still in flight; afterwards the stale
"shiba" computation completes, then the "akita" one does. -/
def shibaAkitaActs : List (Action String String String) :=
  [Action.write breedSig "akita",
   Action.complete 0 (Except.ok "shiba-pic"),
   Action.complete 1 (Except.ok "akita-pic")]

/-- The resource at the end of the shiba/akita scenario. -/
def shibaAkitaFinal : Res String String :=
  (run picCompute (create picCompute shibaEnv, shibaEnv) shibaAkitaActs).1

/-- C4: once generation `g` has been superseded (the current generation
exceeds `g`), the later completion of `g`'s computation — whatever actions
have happened in between, and whether it succeeded or failed — leaves the
resource exactly as it was: only the most recent generation's result is
ever committed. -/
theorem stale_completion_no_effect {V T E : Type} (c : Compute V)
    (p : Res T E × (ℕ → V)) (acts : List (Action V T E))
    (g : ℕ) (res : Except E T) (hg : g < p.1.generation) :
    (step c (run c p acts) (Action.complete g res)).1 = (run c p acts).1 := by
  have hmono := run_generation_le c acts p
  have hne : ¬ g = (run c p acts).1.generation := by omega
  simp [step, hne]

/-- Auxiliary concrete data for witnesses: a dependency-free compute over
natural-number signals. -/
def natCompute : Compute ℕ :=
  { syncReads := fun _ => [], asyncReads := fun _ => [] }

/-- Auxiliary concrete environment for witnesses. -/
def natEnv : ℕ → ℕ := fun _ => 0

/-- Auxiliary concrete resource for witnesses, already at generation 2. -/
def gen2Res : Res ℕ ℕ :=
  { generation := 2, state := RState.Pending, dependencies := [] }

/-- Witness for C4: generation 0 was superseded (current generation 2);
after a further restart, its completion with value 5 changes nothing. -/
theorem stale_completion_no_effect_witness :
    (0 : ℕ) < gen2Res.generation ∧
    (step natCompute (run natCompute (gen2Res, natEnv) [Action.restart])
        (Action.complete 0 (Except.ok 5))).1
      = (run natCompute (gen2Res, natEnv) [Action.restart]).1 :=
  ⟨by decide,
   stale_completion_no_effect natCompute (gen2Res, natEnv) [Action.restart]
     0 (Except.ok 5) (by decide)⟩

/-- C5: the generation counter never decreases under any action and is
strictly incremented by every restart; whenever a well-formed trace from a
pending resource ends with a committed result, that result belongs to a
completion whose generation dominates every completion of the trace; and
in the concrete shiba/akita scenario the write increments the generation
and only the "akita" computation's result is committed. -/
theorem generation_monotone_highest_commit {V T E : Type} (c : Compute V)
    (p : Res T E × (ℕ → V)) (acts : List (Action V T E))
    (hwf : WFfrom c p acts) (hp : p.1.state = RState.Pending)
    (t : Except E T) (hst : (run c p acts).1.state = ofResult t) :
    (∀ (q : Res T E × (ℕ → V)) (a : Action V T E),
        q.1.generation ≤ (step c q a).1.generation) ∧
    (∀ q : Res T E × (ℕ → V),
        (step c q Action.restart).1.generation = q.1.generation + 1) ∧
    (∃ g, (g, t) ∈ completes acts ∧ ∀ gr ∈ completes acts, gr.1 ≤ g) ∧
    (shibaAkitaFinal.generation = 1 ∧
      shibaAkitaFinal.state = RState.Ready "akita-pic") := by
  refine ⟨step_generation_le c, fun q => by simp [step, doRestart], ?_, rfl, rfl⟩
  rcases run_state_highest c acts p hwf t hst with
    ⟨g, hmem, hmax, _⟩ | ⟨hps, _⟩
  · exact ⟨g, hmem, hmax⟩
  · rw [hp] at hps
    exact absurd hps.symm (ofResult_ne_Pending t)

/-- Witness for C5: the shiba/akita trace is well formed, starts pending,
ends with the committed result `Ok "akita-pic"`, and that result belongs to
the dominating completion. -/
theorem generation_monotone_highest_commit_witness :
    WFfrom picCompute (create picCompute shibaEnv, shibaEnv) shibaAkitaActs ∧
    (create picCompute shibaEnv : Res String String).state = RState.Pending ∧
    ∃ g, (g, Except.ok "akita-pic") ∈
        (completes shibaAkitaActs : List (ℕ × Except String String)) ∧
      ∀ gr ∈ (completes shibaAkitaActs : List (ℕ × Except String String)),
        gr.1 ≤ g := by
  have hwf : WFfrom picCompute
      (create picCompute shibaEnv, shibaEnv) shibaAkitaActs := by
    simp [WFfrom, shibaAkitaActs, step, create, picCompute, doRestart,
      writeEnv, breedSig]
  exact ⟨hwf, rfl,
    (generation_monotone_highest_commit picCompute _ shibaAkitaActs hwf rfl
      (Except.ok "akita-pic") rfl).2.2.1⟩

/-- Helper for C6: a trace containing no completion event leaves a pending
resource pending — restarts and writes only ever reset the state to
`Pending` or leave it alone. -/
theorem no_completion_keeps_pending {V T E : Type} (c : Compute V) :
    ∀ (acts : List (Action V T E)) (p : Res T E × (ℕ → V)),
      p.1.state = RState.Pending →
      (∀ g res, Action.complete g res ∉ acts) →
      (run c p acts).1.state = RState.Pending := by
  intro acts
  induction acts with
  | nil =>
    intro p hp _
    simpa [run] using hp
  | cons a rest ih =>
    intro p hp hnc
    rw [run_cons]
    refine ih (step c p a) ?_ ?_
    · cases a with
      | restart => simp [step, doRestart]
      | write s v =>
        by_cases h : s ∈ p.1.dependencies <;>
          simp [step, doRestart, h, hp]
      | complete g res =>
        exact absurd (List.mem_cons_self _ _) (hnc g res)
    · intro g res hmem
      exact hnc g res (List.mem_cons_of_mem a hmem)

/-- C6: reading a freshly created resource yields `Pending` at every point
of every trace in which no computation has yet completed; `read` is a total
projection of the committed state, so it never blocks. -/
theorem fresh_resource_reads_pending {V T E : Type} (c : Compute V)
    (σ : ℕ → V) (acts : List (Action V T E))
    (hnc : ∀ g res, Action.complete g res ∉ acts) :
    read (run c ((create c σ : Res T E), σ) acts).1 = RState.Pending :=
  no_completion_keeps_pending c acts _ rfl hnc

/-- Witness for C6 on a completion-free trace of a restart and a write. -/
theorem fresh_resource_reads_pending_witness :
    read (run natCompute ((create natCompute natEnv : Res ℕ ℕ), natEnv)
        [Action.restart, Action.write 1 5]).1 = RState.Pending :=
  fresh_resource_reads_pending natCompute natEnv
    [Action.restart, Action.write 1 5]
    (by intro g res h; simp [List.mem_cons] at h)

/-- C7: a completion of the current generation carrying an error commits
`Failed` with exactly that error as data and leaves the generation
unchanged (no automatic retry); conversely the only actions that start a
new attempt — strictly increase the generation — are an explicit restart or
a write to a recorded dependency. -/
theorem failure_commits_failed_no_retry {V T E : Type} (c : Compute V)
    (p : Res T E × (ℕ → V)) (e : E) :
    (step c p (Action.complete p.1.generation (Except.error e))).1.state
      = RState.Failed e ∧
    (step c p (Action.complete p.1.generation (Except.error e))).1.generation
      = p.1.generation ∧
    (∀ a : Action V T E, p.1.generation < (step c p a).1.generation →
        a = Action.restart ∨
        ∃ s v, a = Action.write s v ∧ s ∈ p.1.dependencies) := by
  refine ⟨by simp [step, ofResult], by simp [step], ?_⟩
  intro a ha
  cases a with
  | restart => exact Or.inl rfl
  | write s v =>
    by_cases h : s ∈ p.1.dependencies
    · exact Or.inr ⟨s, v, rfl, h⟩
    · exfalso
      simp [step, h] at ha
  | complete g res =>
    exfalso
    by_cases h : g = p.1.generation <;> simp [step, h] at ha

/-- Witness for C7: committing the error 7 at the current generation, and
the restart action as a strict generation increase. -/
theorem failure_commits_failed_no_retry_witness :
    (step natCompute (gen2Res, natEnv)
        (Action.complete gen2Res.generation (Except.error 7))).1.state
      = RState.Failed 7 ∧
    ((Action.restart : Action ℕ ℕ ℕ) = Action.restart ∨
      ∃ s v, (Action.restart : Action ℕ ℕ ℕ) = Action.write s v ∧
        s ∈ (gen2Res, natEnv).1.dependencies) :=
  ⟨(failure_commits_failed_no_retry natCompute (gen2Res, natEnv) 7).1,
   (failure_commits_failed_no_retry natCompute (gen2Res, natEnv) 7).2.2
     Action.restart (by decide)⟩

/-- C8: after a restart the recorded dependencies are exactly the signal
identities read during the synchronous prefix; a write to any signal
outside that set — in particular one read only after a suspension point —
does not restart the resource, while a write to a synchronous-prefix read
does. -/
theorem sync_reads_are_dependencies {V T E : Type} (c : Compute V)
    (σ : ℕ → V) (r : Res T E) :
    (doRestart c σ r).dependencies = c.syncReads σ ∧
    (∀ s v, s ∉ c.syncReads σ →
        (step c (doRestart c σ r, σ) (Action.write s v)).1
          = doRestart c σ r) ∧
    (∀ s v, s ∈ c.asyncReads σ → s ∉ c.syncReads σ →
        (step c (doRestart c σ r, σ) (Action.write s v)).1
          = doRestart c σ r) ∧
    (∀ s v, s ∈ c.syncReads σ →
        (step c (doRestart c σ r, σ) (Action.write s v)).1
          = doRestart c (writeEnv σ s v) (doRestart c σ r)) := by
  refine ⟨rfl, ?_, ?_, ?_⟩
  · intro s v hs
    simp [step, doRestart, hs]
  · intro s v _ hs
    simp [step, doRestart, hs]
  · intro s v hs
    simp [step, doRestart, hs]

/-- A compute shape that reads signal 0 synchronously and signal 1 only
after its first suspension point, for the C8 witness. -/
def splitCompute : Compute ℕ :=
  { syncReads := fun _ => [0], asyncReads := fun _ => [1] }

/-- Witness for C8: the dependency set is the synchronous read `[0]`, and
a write to signal 1 — read only after the suspension point — does not
restart. -/
theorem sync_reads_are_dependencies_witness :
    (doRestart splitCompute natEnv (gen2Res : Res ℕ ℕ)).dependencies
      = [0] ∧
    (step splitCompute (doRestart splitCompute natEnv gen2Res, natEnv)
        (Action.write 1 9)).1 = doRestart splitCompute natEnv gen2Res :=
  ⟨(sync_reads_are_dependencies splitCompute natEnv gen2Res).1,
   (sync_reads_are_dependencies splitCompute natEnv gen2Res).2.2.1 1 9
     (by decide) (by decide)⟩

/-- Embedded from the source (`dog_app.rs`, `breed_list`): the compute
closure of the breed-list resource mentions no signal at all — `breed`
does not occur in its body — so it reads none, neither synchronously nor
after its awaits. -/
def breedListCompute (V : Type) : Compute V :=
  { syncReads := fun _ => [], asyncReads := fun _ => [] }

/-- Helper for C10: writes never change a resource whose dependency set is
empty. -/
theorem writes_keep_resource {V T E : Type} :
    ∀ (ws : List (ℕ × V)) (r : Res T E) (σ : ℕ → V),
      r.dependencies = [] →
      (run (breedListCompute V) (r, σ)
          (ws.map fun sv => Action.write sv.1 sv.2)).1 = r := by
  intro ws
  induction ws with
  | nil =>
    intro r σ _
    simp [run]
  | cons w ws ih =>
    intro r σ hdep
    rw [List.map_cons, run_cons]
    have hstep : step (breedListCompute V) (r, σ) (Action.write w.1 w.2)
        = (r, writeEnv σ w.1 w.2) := by
      simp [step, hdep]
    rw [hstep]
    exact ih r _ hdep

/-- C10: the breed-list resource's dependency set is empty, and no
sequence of signal writes — to the breed signal or any other — ever
restarts it: its generation, state and dependencies are all unchanged. -/
theorem breed_list_immune_to_writes {V T E : Type} (σ : ℕ → V)
    (ws : List (ℕ × V)) :
    (create (breedListCompute V) σ : Res T E).dependencies = [] ∧
    (run (breedListCompute V)
        ((create (breedListCompute V) σ : Res T E), σ)
        (ws.map fun sv => Action.write sv.1 sv.2)).1
      = create (breedListCompute V) σ :=
  ⟨rfl, writes_keep_resource ws _ σ rfl⟩

/-- Outcome of running a Rust expression: it either produces a value or
panics (as `.unwrap()` does on an `Err`). -/
inductive Outcome (A : Type) where
  | ok (a : A) : Outcome A
  | panicked : Outcome A
deriving DecidableEq

/-- Model of `reqwest::Error`: the request can fail before yielding any
response (connection failure) or the body can fail to decode. -/
inductive ReqErr where
  | connect : ReqErr
  | decode : ReqErr
deriving DecidableEq

/-- Model of an HTTP response body, opaque to the resource. -/
structure Response where
  body : String
deriving DecidableEq

/-- The `DogApi` payload of `dog_app.rs`. -/
structure DogApi where
  message : String
deriving DecidableEq

/-- The `ListBreeds` payload of `dog_app.rs`; the `HashMap` of breeds is
modelled as an association list. -/
structure ListBreeds where
  message : List (String × List String)
deriving DecidableEq

/-- The fragments of rendered output the breed-list computation can
return. -/
inductive Element where
  | errorFetchingBreeds : Element
  | breedButtons (breeds : List String) : Element
deriving DecidableEq

/-- Embedding of the `breed_list` compute body of `dog_app.rs`: it runs
`reqwest::get(url).await.unwrap().json::<ListBreeds>().await`, renders the
error element when the `let Ok(breeds) = list else ...` pattern fails, and
otherwise renders one button per breed for the first 20 keys.  `get` is
the outcome of the HTTP request and `json` the deserialization of a
response; `.unwrap()` on a failed request panics, while a deserialization
failure is turned into the error element. -/
def breedListBody (get : Except ReqErr Response)
    (json : Response → Except ReqErr ListBreeds) : Outcome Element :=
  match get with
  | .error _ => .panicked
  | .ok resp =>
      match json resp with
      | .error _ => .ok .errorFetchingBreeds
      | .ok breeds => .ok (.breedButtons ((breeds.message.map Prod.fst).take 20))

/-- Embedding of the `BreedPic` compute body of `dog_app.rs`:

  reqwest::get(url).await.unwrap().json::<DogApi>().await

`.unwrap()` on a failed request panics; otherwise the deserialization
result — `Ok` or `Err` — is the value of the computation and is what the
resource commits. -/
def breedPicBody (get : Except ReqErr Response)
    (json : Response → Except ReqErr DogApi) : Outcome (Except ReqErr DogApi) :=
  match get with
  | .error _ => .panicked
  | .ok resp => .ok (json resp)

/-- C3 counterexample: when the HTTP request itself fails before yielding a
response (`reqwest::get` returns `Err`), both compute bodies panic through
`.unwrap()` instead of representing the failure as data. -/
theorem failed_request_panics :
    breedPicBody (Except.error ReqErr.connect)
        (fun _ => Except.error ReqErr.decode) = Outcome.panicked ∧
    breedListBody (Except.error ReqErr.connect)
        (fun _ => Except.error ReqErr.decode) = Outcome.panicked :=
  ⟨rfl, rfl⟩

/-- C3 (amended): once the HTTP request has yielded a response, every
failure of the deserialization stage is represented as data — the
`BreedPic` body returns the `Err` value, which the resource commits as the
`Failed` state, and the breed-list body returns the error element — but a
failure of the HTTP request itself before yielding a response makes the
compute body panic via `.unwrap()` rather than becoming data. -/
theorem deserialization_failure_is_data (resp : Response)
    (jp : Response → Except ReqErr DogApi)
    (jl : Response → Except ReqErr ListBreeds) (e : ReqErr)
    (hjp : jp resp = Except.error e) (hjl : jl resp = Except.error e) :
    breedPicBody (Except.ok resp) jp = Outcome.ok (Except.error e) ∧
    ofResult (Except.error e) = (RState.Failed e : RState DogApi ReqErr) ∧
    breedListBody (Except.ok resp) jl = Outcome.ok Element.errorFetchingBreeds ∧
    (∀ e' : ReqErr, breedPicBody (Except.error e') jp = Outcome.panicked) := by
  refine ⟨?_, rfl, ?_, fun e' => rfl⟩
  · simp [breedPicBody, hjp]
  · simp [breedListBody, hjl]

/-- Witness for the amended C3 at a concrete response whose body fails to
deserialize with a decode error. -/
theorem deserialization_failure_is_data_witness :
    breedPicBody (Except.ok (Response.mk "x"))
        (fun _ => Except.error ReqErr.decode)
      = Outcome.ok (Except.error ReqErr.decode) ∧
    ofResult (Except.error ReqErr.decode)
      = (RState.Failed ReqErr.decode : RState DogApi ReqErr) ∧
    breedListBody (Except.ok (Response.mk "x"))
        (fun _ => Except.error ReqErr.decode)
      = Outcome.ok Element.errorFetchingBreeds ∧
    (∀ e' : ReqErr,
        breedPicBody (Except.error e') (fun _ => Except.error ReqErr.decode)
          = Outcome.panicked) :=
  deserialization_failure_is_data (Response.mk "x")
    (fun _ => Except.error ReqErr.decode)
    (fun _ => Except.error ReqErr.decode) ReqErr.decode rfl rfl

end DogApp
